import Mathlib

/-!
Shallow embedding of `src/kronecker.py` (module `kronecker` of the t3f
repository): closed-form determinant, log-determinant, inverse and Cholesky
factorization of a matrix represented as a Kronecker product of small square
factor cores, carried by a `TensorTrain` value.

The `TensorTrain` container and the dense linear-algebra primitives
(`tf.matrix_determinant`, `tf.matrix_inverse`, `tf.cholesky`, `tf.log`,
`tf.pow`) are external collaborators of the module; they are modelled from the
spec.  Matrix entries are modelled as exact integers.  Each operation is
embedded together with the trace of dense decomposition-primitive invocations
it performs before returning or raising, so that fail-fast properties can be
stated.  `raise ValueError(msg)` is modelled as `Except.error msg`.
-/

/-- Modelled from the spec: a dense 2-D matrix of the external numeric backend,
as a list of rows of exact integer entries (the dense backend computes over scalars; the concrete factor matrices of the spec are integral, and every identity proved below is a ring identity). -/
abbrev Mat := List (List ℤ)

/-- Row count of a dense matrix (dimension 1 of the core slice). -/
def matRows (m : Mat) : ℕ := m.length

/-- Column count of a dense matrix (dimension 2 of the core slice). -/
def matCols (m : Mat) : ℕ := (m.headD []).length

/-- Modelled from the spec: the external dense determinant primitive
(`tf.matrix_determinant`), Laplace expansion along the first row, driven by a
row-count fuel so that it is structurally recursive. -/
def matDetAux : ℕ → Mat → ℤ
  | 0, _ => 1
  | _ + 1, [] => 1
  | fuel + 1, r :: rest =>
    (List.range r.length).foldl
      (fun acc j =>
        acc + (-1 : ℤ) ^ j * r.getD j 0 *
          matDetAux fuel (rest.map (fun row => row.eraseIdx j))) 0

/-- Modelled from the spec: dense determinant of a square matrix. -/
def matDet (m : Mat) : ℤ := matDetAux m.length m

/-- Modelled from the spec: the external `TensorTrain` factored-matrix value.
`tt_cores` holds, for each factor, the dense 2-D slice `core[0, :, :, 0]` that
the module operates on; `raw_shape` is the per-factor (rows, columns) shape
descriptor; `tt_ranks` is the linking-rank sequence; `is_tt_matrix` is the
matrix-vs-vector tag. -/
structure TensorTrain where
  tt_cores : List Mat
  raw_shape : List (ℕ × ℕ)
  tt_ranks : List ℕ
  is_tt_matrix : Bool
deriving DecidableEq, Repr

/-- Modelled from the spec: `TensorTrain.ndims()`, the number of factors. -/
def TensorTrain.ndims (a : TensorTrain) : ℕ := a.tt_cores.length

/-- Modelled from the spec: `TensorTrain.get_tt_ranks()`. -/
def TensorTrain.get_tt_ranks (a : TensorTrain) : List ℕ := a.tt_ranks

/-- Modelled from the spec: `TensorTrain.get_raw_shape()`. -/
def TensorTrain.get_raw_shape (a : TensorTrain) : List (ℕ × ℕ) := a.raw_shape

/-- Modelled from the spec: the external `TensorTrain` constructor taking
(factor-core sequence, shape descriptor, linking-rank sequence).  The
matrix-vs-vector tag is inferred from the shape descriptor; a per-factor
(rows, columns) descriptor — the only shape form in this embedding — yields a
matrix-tagged value. -/
def mkTT (cores : List Mat) (shape : List (ℕ × ℕ)) (ranks : List ℕ) :
    TensorTrain :=
  { tt_cores := cores, raw_shape := shape, tt_ranks := ranks,
    is_tt_matrix := true }

/-- Maximum of a list of naturals, as Python's `max` on a nonempty list. -/
def listMax (l : List ℕ) : ℕ := l.foldr max 0

/-- Embedding of `_is_kron` (src/kronecker.py lines 136-147). -/
def _is_kron (tt_a : TensorTrain) : Bool :=
  if tt_a.is_tt_matrix then listMax tt_a.get_tt_ranks == 1 else false

/-- Message of the rank-validation ValueError of determinant,
log_determinant and inv. -/
def kronMsg : String :=
  "The argument should be a Kronecker product (tt-ranks should be 1)"

/-- Message of the rank-validation ValueError of cholesky (it omits the
parenthetical about tt-ranks). -/
def kronMsgChol : String := "The argument should be a Kronecker product"

/-- Message of the square-core validation ValueError (the source concatenates
two adjacent string literals with no space in between). -/
def squareMsg : String :=
  "The argument should be a Kronecker product of square matrices(tt-cores must be square)"

/-- One invocation of a dense decomposition primitive of the external backend,
tagged with the index of the factor core it was applied to. -/
inductive PrimCall where
  | detCall (i : ℕ)
  | invCall (i : ℕ)
  | cholCall (i : ℕ)
deriving DecidableEq, Repr

/-- Embedding of the first loop of determinant / log_determinant
(src/kronecker.py lines 29-34 and 62-67): check each core is square and
accumulate `pows`, the product of the side lengths. -/
def powsLoop : ℕ → List Mat → Except String ℕ
  | acc, [] => .ok acc
  | acc, c :: cs =>
    if matRows c = matCols c then powsLoop (acc * matRows c) cs
    else .error squareMsg

/-- Embedding of the second loop of determinant (src/kronecker.py lines
35-38): multiply in `det(core_i) ^ (pows / side(i))`, tracing the dense
determinant invocation on each core. -/
def detLoop (pows : ℕ) : ℕ → ℤ → List PrimCall → List Mat → ℤ × List PrimCall
  | _, acc, tr, [] => (acc, tr)
  | i, acc, tr, c :: cs =>
    detLoop pows (i + 1) (acc * matDet c ^ (pows / matRows c))
      (tr ++ [PrimCall.detCall i]) cs

/-- Embedding of `determinant` (src/kronecker.py lines 6-38), returning the
result together with the trace of dense decomposition invocations performed
before returning or raising. -/
def determinantT (kron_a : TensorTrain) : Except String ℤ × List PrimCall :=
  if _is_kron kron_a then
    match powsLoop 1 kron_a.tt_cores with
    | .error e => (.error e, [])
    | .ok pows =>
      let r := detLoop pows 0 1 [] kron_a.tt_cores
      (.ok r.1, r.2)
  else (.error kronMsg, [])

/-- Result of `determinant`, the trace dropped. -/
def determinant (kron_a : TensorTrain) : Except String ℤ :=
  (determinantT kron_a).1

/-- Embedding of the second loop of log_determinant (src/kronecker.py lines
69-72): add `log(det(core_i)) * (pows / side(i))`.  The scalar codomain of the
external `tf.log` primitive is kept generic (`lg : ℤ → S`), and multiplication
by the natural exponent is `nsmul`. -/
def logdetLoop {S : Type} [AddCommMonoid S] (lg : ℤ → S) (pows : ℕ) :
    ℕ → S → List PrimCall → List Mat → S × List PrimCall
  | _, acc, tr, [] => (acc, tr)
  | i, acc, tr, c :: cs =>
    logdetLoop lg pows (i + 1) (acc + (pows / matRows c) • lg (matDet c))
      (tr ++ [PrimCall.detCall i]) cs

/-- Embedding of `log_determinant` (src/kronecker.py lines 41-75), with the
invocation trace. -/
def log_determinantT {S : Type} [AddCommMonoid S] (lg : ℤ → S)
    (kron_a : TensorTrain) : Except String S × List PrimCall :=
  if _is_kron kron_a then
    match powsLoop 1 kron_a.tt_cores with
    | .error e => (.error e, [])
    | .ok pows =>
      let r := logdetLoop lg pows 0 0 [] kron_a.tt_cores
      (.ok r.1, r.2)
  else (.error kronMsg, [])

/-- Result of `log_determinant`, the trace dropped. -/
def log_determinant {S : Type} [AddCommMonoid S] (lg : ℤ → S)
    (kron_a : TensorTrain) : Except String S :=
  (log_determinantT lg kron_a).1

/-- Embedding of the single loop shared by inv (src/kronecker.py lines
94-101) and cholesky (lines 124-130): per core, check squareness and, if it
passes, apply the dense per-factor transform `f` (`tf.matrix_inverse`
respectively `tf.cholesky`), appending the transformed core and tracing the
invocation `call i`. -/
def buildLoop (f : Mat → Mat) (call : ℕ → PrimCall) :
    ℕ → List Mat → List PrimCall → List Mat →
    Except String (List Mat) × List PrimCall
  | _, acc, tr, [] => (.ok acc, tr)
  | i, acc, tr, c :: cs =>
    if matRows c = matCols c then
      buildLoop f call (i + 1) (acc ++ [f c]) (tr ++ [call i]) cs
    else (.error squareMsg, tr)

/-- Embedding of `inv` (src/kronecker.py lines 77-105), parameterized by the
external dense inverse primitive, with the invocation trace. -/
def invT (matrix_inverse : Mat → Mat) (kron_a : TensorTrain) :
    Except String TensorTrain × List PrimCall :=
  if _is_kron kron_a then
    match buildLoop matrix_inverse PrimCall.invCall 0 [] [] kron_a.tt_cores with
    | (.ok inv_cores, tr) =>
      (.ok (mkTT inv_cores kron_a.get_raw_shape
        (List.replicate (kron_a.ndims + 1) 1)), tr)
    | (.error e, tr) => (.error e, tr)
  else (.error kronMsg, [])

/-- Result of `inv`, the trace dropped. -/
def inv (matrix_inverse : Mat → Mat) (kron_a : TensorTrain) :
    Except String TensorTrain :=
  (invT matrix_inverse kron_a).1

/-- Embedding of `cholesky` (src/kronecker.py lines 107-134), parameterized by
the external dense Cholesky primitive, with the invocation trace. -/
def choleskyT (chol : Mat → Mat) (kron_a : TensorTrain) :
    Except String TensorTrain × List PrimCall :=
  if _is_kron kron_a then
    match buildLoop chol PrimCall.cholCall 0 [] [] kron_a.tt_cores with
    | (.ok cho_cores, tr) =>
      (.ok (mkTT cho_cores kron_a.get_raw_shape
        (List.replicate (kron_a.ndims + 1) 1)), tr)
    | (.error e, tr) => (.error e, tr)
  else (.error kronMsgChol, [])

/-- Result of `cholesky`, the trace dropped. -/
def cholesky (chol : Mat → Mat) (kron_a : TensorTrain) :
    Except String TensorTrain :=
  (choleskyT chol kron_a).1

/-- All cores of a list are square. -/
abbrev allSquare (cs : List Mat) : Prop := ∀ c ∈ cs, matRows c = matCols c

/-- All cores of a list have a positive side length. -/
abbrev allPos (cs : List Mat) : Prop := ∀ c ∈ cs, 0 < matRows c

/-- Product of the side lengths of the cores: the overall dimension N. -/
def sidesProd (cs : List Mat) : ℕ := (cs.map matRows).prod

/-- Length of the square prefix of a core list: the number of leading cores
that pass the squareness check before the first non-square one. -/
def sqCount (cs : List Mat) : ℕ :=
  (cs.takeWhile (fun c => matRows c == matCols c)).length

/-- Modelled from the spec: the external `tf.log` primitive over IEEE floats,
with every non-finite value (NaN, −infinity) collapsed to `⊥`: on a positive
argument it returns the finite value `l q` of a genuine logarithm `l`, on zero
or a negative argument a non-finite value. -/
def logOrBot (l : ℤ → ℤ) (q : ℤ) : WithBot ℤ :=
  if 0 < q then ((l q : ℤ) : WithBot ℤ) else ⊥

/-- A factored value is accepted (no structural-validation error) by all four
operations of the module, whatever dense primitives the backend supplies. -/
def acceptedByAll (b : TensorTrain) : Prop :=
  (∃ q, determinant b = Except.ok q) ∧
  (∀ (S : Type), ∀ (_ : AddCommMonoid S), ∀ lg : ℤ → S,
    ∃ s, log_determinant lg b = Except.ok s) ∧
  (∀ f : Mat → Mat, ∃ t, inv f b = Except.ok t) ∧
  (∀ g : Mat → Mat, ∃ t, cholesky g b = Except.ok t)

deriving instance DecidableEq for Except

/-! Concrete example values used by witnesses and counterexamples. -/

/-- Example 2×2 factor with determinant 2 (spec testable property 3). -/
def exA : Mat := [[2, 0], [0, 1]]

/-- Example 3×3 factor with determinant 5 (spec testable property 3). -/
def exB : Mat := [[5, 0, 0], [0, 1, 0], [0, 0, 1]]

/-- The factored value representing `exA ⊗ exB` (6×6). -/
def exTT : TensorTrain := ⟨[exA, exB], [(2, 2), (3, 3)], [1, 1, 1], true⟩

/-- The same factors in the opposite order, representing `exB ⊗ exA`. -/
def exTTswap : TensorTrain := ⟨[exB, exA], [(3, 3), (2, 2)], [1, 1, 1], true⟩

/-- A factored value whose first core is square (1×1) and whose second core is
non-square (1×2), with all linking ranks 1. -/
def exMixed : TensorTrain := ⟨[[[1]], [[1, 0]]], [(1, 1), (1, 2)], [1, 1, 1], true⟩

/-- A matrix-tagged factored value whose linking-rank sequence [1, 0] contains
a value other than 1 while its maximum is still 1. -/
def exRankZero : TensorTrain := ⟨[[[1]]], [(1, 1)], [1, 0], true⟩

/-- A matrix-tagged factored value with a linking rank of 2. -/
def exBadRank : TensorTrain := ⟨[exA], [(2, 2)], [1, 2], true⟩

/-- A structurally valid factored value whose single factor has determinant 0. -/
def exZeroDet : TensorTrain := ⟨[[[0]]], [(1, 1)], [1, 1], true⟩

/-! Helper lemmas about the loop embeddings. -/

theorem powsLoop_ok : ∀ (cs : List Mat) (acc : ℕ), allSquare cs →
    powsLoop acc cs = .ok (acc * sidesProd cs) := by
  intro cs
  induction cs with
  | nil => intro acc _; simp [powsLoop, sidesProd]
  | cons c cs ih =>
    intro acc h
    have hc : matRows c = matCols c := h c (by simp)
    have hcs : allSquare cs := fun x hx => h x (List.mem_cons_of_mem _ hx)
    simp only [powsLoop, if_pos hc]
    rw [ih _ hcs]
    simp [sidesProd, mul_assoc]

theorem powsLoop_err : ∀ (cs : List Mat) (acc : ℕ),
    (∃ c ∈ cs, matRows c ≠ matCols c) →
    powsLoop acc cs = .error squareMsg := by
  intro cs
  induction cs with
  | nil => intro acc h; simp at h
  | cons c cs ih =>
    intro acc h
    by_cases hc : matRows c = matCols c
    · simp only [powsLoop, if_pos hc]
      rcases h with ⟨d, hd, hne⟩
      rcases List.mem_cons.mp hd with rfl | hd
      · exact absurd hc hne
      · exact ih _ ⟨d, hd, hne⟩
    · simp only [powsLoop, if_neg hc]

theorem detLoop_fst (p : ℕ) : ∀ (cs : List Mat) (i : ℕ) (acc : ℤ)
    (tr : List PrimCall),
    (detLoop p i acc tr cs).1 =
      acc * (cs.map fun c => matDet c ^ (p / matRows c)).prod := by
  intro cs
  induction cs with
  | nil => intro i acc tr; simp [detLoop]
  | cons c cs ih =>
    intro i acc tr
    simp only [detLoop]
    rw [ih]
    simp [mul_assoc]

theorem logdetLoop_fst {S : Type} [AddCommMonoid S] (lg : ℤ → S) (p : ℕ) :
    ∀ (cs : List Mat) (i : ℕ) (acc : S) (tr : List PrimCall),
    (logdetLoop lg p i acc tr cs).1 =
      acc + (cs.map fun c => (p / matRows c) • lg (matDet c)).sum := by
  intro cs
  induction cs with
  | nil => intro i acc tr; simp [logdetLoop]
  | cons c cs ih =>
    intro i acc tr
    simp only [logdetLoop]
    rw [ih]
    simp [add_assoc]

theorem buildLoop_ok (f : Mat → Mat) (call : ℕ → PrimCall) :
    ∀ (cs : List Mat), allSquare cs → ∀ (i : ℕ) (acc : List Mat)
    (tr : List PrimCall),
    buildLoop f call i acc tr cs =
      (.ok (acc ++ cs.map f), tr ++ (List.range' i cs.length).map call) := by
  intro cs
  induction cs with
  | nil => intro _ i acc tr; simp [buildLoop]
  | cons c cs ih =>
    intro h i acc tr
    have hc : matRows c = matCols c := h c (by simp)
    have hcs : allSquare cs := fun x hx => h x (List.mem_cons_of_mem _ hx)
    simp only [buildLoop, if_pos hc]
    rw [ih hcs]
    simp [List.range'_succ]

theorem buildLoop_err (f : Mat → Mat) (call : ℕ → PrimCall) :
    ∀ (cs : List Mat), (∃ c ∈ cs, matRows c ≠ matCols c) →
    ∀ (i : ℕ) (acc : List Mat) (tr : List PrimCall),
    buildLoop f call i acc tr cs =
      (.error squareMsg, tr ++ (List.range' i (sqCount cs)).map call) := by
  intro cs
  induction cs with
  | nil => intro h; simp at h
  | cons c cs ih =>
    intro h i acc tr
    by_cases hc : matRows c = matCols c
    · have hcs : ∃ d ∈ cs, matRows d ≠ matCols d := by
        rcases h with ⟨d, hd, hne⟩
        rcases List.mem_cons.mp hd with rfl | hd
        · exact absurd hc hne
        · exact ⟨d, hd, hne⟩
      simp only [buildLoop, if_pos hc]
      rw [ih hcs]
      have hsq : sqCount (c :: cs) = sqCount cs + 1 := by
        simp [sqCount, List.takeWhile_cons, hc]
      rw [hsq]
      simp [List.range'_succ]
    · simp only [buildLoop, if_neg hc]
      have hsq : sqCount (c :: cs) = 0 := by
        simp [sqCount, List.takeWhile_cons, hc]
      rw [hsq]
      simp

/-! Operation-level helper lemmas. -/

theorem determinantT_ok (a : TensorTrain) (hk : _is_kron a = true)
    (hsq : allSquare a.tt_cores) :
    (determinantT a).1 =
      .ok ((a.tt_cores.map
        fun c => matDet c ^ (sidesProd a.tt_cores / matRows c)).prod) := by
  have hp := powsLoop_ok a.tt_cores 1 hsq
  rw [one_mul] at hp
  simp only [determinantT, hk, if_true, hp]
  rw [detLoop_fst, one_mul]

theorem log_determinantT_ok {S : Type} [AddCommMonoid S] (lg : ℤ → S)
    (a : TensorTrain) (hk : _is_kron a = true) (hsq : allSquare a.tt_cores) :
    (log_determinantT lg a).1 =
      .ok ((a.tt_cores.map
        fun c => (sidesProd a.tt_cores / matRows c) • lg (matDet c)).sum) := by
  have hp := powsLoop_ok a.tt_cores 1 hsq
  rw [one_mul] at hp
  simp only [log_determinantT, hk, if_true, hp]
  rw [logdetLoop_fst, zero_add]

theorem invT_ok (f : Mat → Mat) (a : TensorTrain) (hk : _is_kron a = true)
    (hsq : allSquare a.tt_cores) :
    invT f a =
      (.ok (mkTT (a.tt_cores.map f) a.raw_shape
          (List.replicate (a.ndims + 1) 1)),
        (List.range' 0 a.tt_cores.length).map PrimCall.invCall) := by
  simp only [invT, hk, if_true, buildLoop_ok f PrimCall.invCall a.tt_cores hsq,
    List.nil_append, TensorTrain.get_raw_shape]

theorem choleskyT_ok (g : Mat → Mat) (a : TensorTrain) (hk : _is_kron a = true)
    (hsq : allSquare a.tt_cores) :
    choleskyT g a =
      (.ok (mkTT (a.tt_cores.map g) a.raw_shape
          (List.replicate (a.ndims + 1) 1)),
        (List.range' 0 a.tt_cores.length).map PrimCall.cholCall) := by
  simp only [choleskyT, hk, if_true,
    buildLoop_ok g PrimCall.cholCall a.tt_cores hsq,
    List.nil_append, TensorTrain.get_raw_shape]

theorem determinantT_sq_err (a : TensorTrain) (hk : _is_kron a = true)
    (hns : ∃ c ∈ a.tt_cores, matRows c ≠ matCols c) :
    determinantT a = (.error squareMsg, []) := by
  simp only [determinantT, hk, if_true, powsLoop_err a.tt_cores 1 hns]

theorem log_determinantT_sq_err {S : Type} [AddCommMonoid S] (lg : ℤ → S)
    (a : TensorTrain) (hk : _is_kron a = true)
    (hns : ∃ c ∈ a.tt_cores, matRows c ≠ matCols c) :
    log_determinantT lg a = (.error squareMsg, []) := by
  simp only [log_determinantT, hk, if_true, powsLoop_err a.tt_cores 1 hns]

theorem invT_sq_err (f : Mat → Mat) (a : TensorTrain) (hk : _is_kron a = true)
    (hns : ∃ c ∈ a.tt_cores, matRows c ≠ matCols c) :
    invT f a =
      (.error squareMsg,
        (List.range' 0 (sqCount a.tt_cores)).map PrimCall.invCall) := by
  simp only [invT, hk, if_true,
    buildLoop_err f PrimCall.invCall a.tt_cores hns, List.nil_append]

theorem choleskyT_sq_err (g : Mat → Mat) (a : TensorTrain)
    (hk : _is_kron a = true)
    (hns : ∃ c ∈ a.tt_cores, matRows c ≠ matCols c) :
    choleskyT g a =
      (.error squareMsg,
        (List.range' 0 (sqCount a.tt_cores)).map PrimCall.cholCall) := by
  simp only [choleskyT, hk, if_true,
    buildLoop_err g PrimCall.cholCall a.tt_cores hns, List.nil_append]

theorem determinantT_rank_err (a : TensorTrain) (hk : _is_kron a = false) :
    determinantT a = (.error kronMsg, []) := by
  simp [determinantT, hk]

theorem log_determinantT_rank_err {S : Type} [AddCommMonoid S] (lg : ℤ → S)
    (a : TensorTrain) (hk : _is_kron a = false) :
    log_determinantT lg a = (.error kronMsg, []) := by
  simp [log_determinantT, hk]

theorem invT_rank_err (f : Mat → Mat) (a : TensorTrain)
    (hk : _is_kron a = false) : invT f a = (.error kronMsg, []) := by
  simp [invT, hk]

theorem choleskyT_rank_err (g : Mat → Mat) (a : TensorTrain)
    (hk : _is_kron a = false) : choleskyT g a = (.error kronMsgChol, []) := by
  simp [choleskyT, hk]

/-! Characterization of the validator. -/

theorem le_listMax {l : List ℕ} {x : ℕ} (hx : x ∈ l) : x ≤ listMax l := by
  induction l with
  | nil => simp at hx
  | cons a l ih =>
    rcases List.mem_cons.mp hx with rfl | hx
    · exact le_max_left _ _
    · exact le_trans (ih hx) (le_max_right _ _)

theorem listMax_le_iff {l : List ℕ} {n : ℕ} :
    listMax l ≤ n ↔ ∀ x ∈ l, x ≤ n := by
  induction l with
  | nil => simp [listMax]
  | cons a l ih =>
    show max a (listMax l) ≤ n ↔ _
    rw [max_le_iff, ih]
    simp

theorem listMax_mem_of_ne_zero {l : List ℕ} (h : listMax l ≠ 0) :
    listMax l ∈ l := by
  induction l with
  | nil => exact absurd rfl h
  | cons a l ih =>
    rcases max_choice a (listMax l) with hc | hc
    · show max a (listMax l) ∈ a :: l
      rw [hc]
      exact List.mem_cons_self _ _
    · show max a (listMax l) ∈ a :: l
      rw [hc]
      refine List.mem_cons_of_mem _ (ih ?_)
      intro h0
      apply h
      show max a (listMax l) = 0
      rw [hc, h0]

theorem listMax_eq_one_iff {l : List ℕ} :
    listMax l = 1 ↔ 1 ∈ l ∧ ∀ x ∈ l, x ≤ 1 := by
  constructor
  · intro h
    refine ⟨?_, ?_⟩
    · have := listMax_mem_of_ne_zero (l := l) (by omega)
      rwa [h] at this
    · intro x hx
      have := le_listMax hx
      omega
  · rintro ⟨h1, hle⟩
    have hub : listMax l ≤ 1 := listMax_le_iff.mpr hle
    have hlb : 1 ≤ listMax l := le_listMax h1
    omega

theorem listMax_eq_one_iff_maximum {l : List ℕ} :
    listMax l = 1 ↔ l.maximum = WithBot.some 1 :=
  listMax_eq_one_iff.trans List.maximum_eq_coe_iff.symm

theorem is_kron_iff (a : TensorTrain) :
    _is_kron a = true ↔
      a.is_tt_matrix = true ∧ a.tt_ranks.maximum = WithBot.some 1 := by
  unfold _is_kron TensorTrain.get_tt_ranks
  cases h : a.is_tt_matrix <;>
    simp [h, beq_iff_eq, listMax_eq_one_iff_maximum]

theorem listMax_replicate_one (n : ℕ) :
    listMax (List.replicate (n + 1) 1) = 1 := by
  induction n with
  | zero => rfl
  | succ n ih =>
    rw [List.replicate_succ]
    show max 1 (listMax (List.replicate (n + 1) 1)) = 1
    rw [ih]
    exact max_self 1

/-! Bridge between the direct-domain and log-domain accumulations. -/

theorem lg_one_eq_zero {S : Type} [AddCommMonoid S] (lg : ℤ → S)
    (hpow : ∀ (x : ℤ) (n : ℕ), 0 < x → lg (x ^ n) = n • lg x) :
    lg 1 = 0 := by
  have h := hpow 1 0 one_pos
  simpa using h

theorem lg_prod_eq_sum {S : Type} [AddCommMonoid S] (lg : ℤ → S)
    (hmul : ∀ x y : ℤ, 0 < x → 0 < y → lg (x * y) = lg x + lg y)
    (hpow : ∀ (x : ℤ) (n : ℕ), 0 < x → lg (x ^ n) = n • lg x) (p : ℕ) :
    ∀ cs : List Mat, (∀ c ∈ cs, 0 < matDet c) →
      lg ((cs.map fun c => matDet c ^ (p / matRows c)).prod) =
        (cs.map fun c => (p / matRows c) • lg (matDet c)).sum := by
  intro cs
  induction cs with
  | nil => intro _; simpa using lg_one_eq_zero lg hpow
  | cons c cs ih =>
    intro h
    have hc : 0 < matDet c := h c (by simp)
    have hcs : ∀ x ∈ cs, 0 < matDet x := fun x hx => h x (by simp [hx])
    have hpos : 0 < (cs.map fun c => matDet c ^ (p / matRows c)).prod := by
      apply List.prod_pos
      intro x hx
      rcases List.mem_map.mp hx with ⟨d, hd, rfl⟩
      exact pow_pos (hcs d hd) _
    simp only [List.map_cons, List.prod_cons, List.sum_cons]
    rw [hmul _ _ (pow_pos hc _) hpos, hpow _ _ hc, ih hcs]

/-! Non-finite propagation in the `WithBot` model of IEEE scalars. -/

theorem nsmul_bot_of_pos {n : ℕ} (h : 0 < n) : n • (⊥ : WithBot ℤ) = ⊥ := by
  obtain ⟨k, rfl⟩ : ∃ k, n = k + 1 := ⟨n - 1, by omega⟩
  rw [succ_nsmul]
  exact WithBot.add_bot _

theorem sum_eq_bot_of_mem {xs : List (WithBot ℤ)} (h : ⊥ ∈ xs) :
    xs.sum = ⊥ := by
  induction xs with
  | nil => simp at h
  | cons x xs ih =>
    rcases List.mem_cons.mp h with rfl | h
    · rw [List.sum_cons]
      exact WithBot.bot_add _
    · rw [List.sum_cons, ih h]
      exact WithBot.add_bot x

theorem sidesProd_pos {cs : List Mat} (h : allPos cs) : 0 < sidesProd cs := by
  apply List.prod_pos
  intro x hx
  rcases List.mem_map.mp hx with ⟨d, hd, rfl⟩
  exact h d hd

theorem exponent_pos {cs : List Mat} {c : Mat} (hc : c ∈ cs) (h : allPos cs) :
    0 < sidesProd cs / matRows c := by
  have hd : matRows c ∣ sidesProd cs :=
    List.dvd_prod (List.mem_map_of_mem matRows hc)
  have hp : 0 < sidesProd cs := sidesProd_pos h
  exact Nat.div_pos (Nat.le_of_dvd hp hd) (h c hc)

/-! Claim theorems. -/

/-- C1: for every factored-matrix value that passes the structure validator and
whose k factor cores are all square with (positive) side lengths
side(1)..side(k), `determinant` returns the product over i of `det(factor_i)`
raised to the power `N / side(i)`, where `N` is the product of all side
lengths.  (Positivity of the side lengths excludes degenerate 0×0 factors, on
which the source's `pows / side` would divide by zero.) -/
theorem kron_determinant_formula (a : TensorTrain)
    (hk : _is_kron a = true) (hsq : allSquare a.tt_cores)
    (hpos : allPos a.tt_cores) :
    determinant a =
      .ok ((a.tt_cores.map
        fun c => matDet c ^ (sidesProd a.tt_cores / matRows c)).prod) :=
  determinantT_ok a hk hsq

/-- Witness for C1 at the spec's concrete example: factor A is 2×2 with
determinant 2, factor B is 3×3 with determinant 5, and `determinant` returns
`2^(6/2) * 5^(6/3) = 2^3 * 5^2 = 200`. -/
theorem kron_determinant_formula_witness :
    _is_kron exTT = true ∧ allSquare exTT.tt_cores ∧ allPos exTT.tt_cores ∧
      matDet exA = 2 ∧ matDet exB = 5 ∧ determinant exTT = .ok 200 :=
  ⟨by decide, by decide, by decide, by decide, by decide,
    (kron_determinant_formula exTT (by decide) (by decide) (by decide)).trans
      (by decide)⟩

theorem sqCount_lt_length {cs : List Mat}
    (h : ∃ c ∈ cs, matRows c ≠ matCols c) : sqCount cs < cs.length := by
  induction cs with
  | nil => simp at h
  | cons c cs ih =>
    by_cases hc : matRows c = matCols c
    · have hcs : ∃ d ∈ cs, matRows d ≠ matCols d := by
        rcases h with ⟨d, hd, hne⟩
        rcases List.mem_cons.mp hd with rfl | hd
        · exact absurd hc hne
        · exact ⟨d, hd, hne⟩
      have hlt := ih hcs
      have hsq : sqCount (c :: cs) = sqCount cs + 1 := by
        simp [sqCount, List.takeWhile_cons, hc]
      rw [hsq, List.length_cons]
      omega
    · have hsq : sqCount (c :: cs) = 0 := by
        simp [sqCount, List.takeWhile_cons, hc]
      rw [hsq, List.length_cons]
      omega

/-- Counterexample to C2 as stated: on `exMixed` — square 1×1 factor followed
by a non-square 1×2 factor, ranks all 1 — `inv` does raise the structural
ValueError, but only after the dense inverse primitive has already been
invoked on factor 0, so the error does not precede every decomposition of
factors preceding the offending one. -/
theorem inv_decomposes_before_error_cex :
    (∃ c ∈ exMixed.tt_cores, matRows c ≠ matCols c) ∧
      invT (fun m => m) exMixed =
        (.error squareMsg, [PrimCall.invCall 0]) := by decide

/-- C2 amended: for an input that passes the rank validator but contains a
non-square factor core, `determinant` and `log_determinant` raise the
structural ValueError before any decomposition primitive is invoked (their
squareness loop precedes the computation loop), while `inv` and `cholesky`
raise it before decomposing the offending factor or any later one, but do
invoke their decomposition primitive on each square factor that precedes the
first non-square factor (their single loop interleaves check and
decomposition).  Inputs failing the rank validator raise with no primitive
invoked. -/
theorem structural_error_fail_fast {S : Type} [AddCommMonoid S] (lg : ℤ → S)
    (f g : Mat → Mat) (a : TensorTrain) (hk : _is_kron a = true)
    (hns : ∃ c ∈ a.tt_cores, matRows c ≠ matCols c) :
    determinantT a = (.error squareMsg, []) ∧
    log_determinantT lg a = (.error squareMsg, []) ∧
    invT f a = (.error squareMsg,
      (List.range' 0 (sqCount a.tt_cores)).map PrimCall.invCall) ∧
    choleskyT g a = (.error squareMsg,
      (List.range' 0 (sqCount a.tt_cores)).map PrimCall.cholCall) ∧
    sqCount a.tt_cores < a.tt_cores.length :=
  ⟨determinantT_sq_err a hk hns, log_determinantT_sq_err lg a hk hns,
    invT_sq_err f a hk hns, choleskyT_sq_err g a hk hns, sqCount_lt_length hns⟩

/-- Witness for the amended C2 at `exMixed`: the square prefix has length 1,
so `inv` and `cholesky` invoke exactly one primitive (on factor 0) before
raising, and `determinant` / `log_determinant` invoke none. -/
theorem structural_error_fail_fast_witness :
    _is_kron exMixed = true ∧
      (∃ c ∈ exMixed.tt_cores, matRows c ≠ matCols c) ∧
      (determinantT exMixed = (.error squareMsg, []) ∧
        log_determinantT (fun q : ℤ => q) exMixed = (.error squareMsg, []) ∧
        invT (fun m => m) exMixed = (.error squareMsg,
          (List.range' 0 (sqCount exMixed.tt_cores)).map PrimCall.invCall) ∧
        choleskyT (fun m => m) exMixed = (.error squareMsg,
          (List.range' 0 (sqCount exMixed.tt_cores)).map PrimCall.cholCall) ∧
        sqCount exMixed.tt_cores < exMixed.tt_cores.length) :=
  ⟨by decide, by decide,
    structural_error_fail_fast (fun q : ℤ => q) (fun m => m) (fun m => m)
      exMixed (by decide) (by decide)⟩

/-- Counterexample to C3 as stated: `exRankZero` is matrix-tagged with
linking-rank sequence [1, 0], which contains the value 0 ≠ 1; yet `_is_kron`
(which tests `max(ranks) == 1`) accepts it, and `determinant` proceeds to read
the factor core, invokes the dense determinant primitive on it and returns a
value instead of raising the structural ValueError. -/
theorem rank_zero_passes_validator_cex :
    (0 : ℕ) ∈ exRankZero.tt_ranks ∧ _is_kron exRankZero = true ∧
      determinantT exRankZero = (.ok 1, [PrimCall.detCall 0]) := by decide

/-- C3 amended: for every factored value whose linking-rank MAXIMUM differs
from 1 (equivalently, when all ranks are positive: whose rank sequence
contains a value other than 1), or that is not tagged as a matrix, each of the
four operations returns the rank-validation ValueError with an empty
decomposition trace, without reading or operating on any factor core. -/
theorem rank_reject_no_core_access {S : Type} [AddCommMonoid S] (lg : ℤ → S)
    (f g : Mat → Mat) (a : TensorTrain)
    (h : ¬(a.is_tt_matrix = true ∧ a.tt_ranks.maximum = WithBot.some 1)) :
    determinantT a = (.error kronMsg, []) ∧
    log_determinantT lg a = (.error kronMsg, []) ∧
    invT f a = (.error kronMsg, []) ∧
    choleskyT g a = (.error kronMsgChol, []) := by
  have hk : _is_kron a = false := by
    rcases Bool.eq_false_or_eq_true (_is_kron a) with h' | h'
    · exact absurd ((is_kron_iff a).mp h') h
    · exact h'
  exact ⟨determinantT_rank_err a hk, log_determinantT_rank_err lg a hk,
    invT_rank_err f a hk, choleskyT_rank_err g a hk⟩

/-- Witness for the amended C3 at `exBadRank` (a linking rank of 2): all four
operations return the rank-validation error with an empty trace. -/
theorem rank_reject_no_core_access_witness :
    ¬(exBadRank.is_tt_matrix = true ∧
        exBadRank.tt_ranks.maximum = WithBot.some 1) ∧
    (determinantT exBadRank = (.error kronMsg, []) ∧
      log_determinantT (fun q : ℤ => q) exBadRank = (.error kronMsg, []) ∧
      invT (fun m => m) exBadRank = (.error kronMsg, []) ∧
      choleskyT (fun m => m) exBadRank = (.error kronMsgChol, [])) :=
  ⟨by decide,
    rank_reject_no_core_access (fun q : ℤ => q) (fun m => m) (fun m => m)
      exBadRank (by decide)⟩

/-- C4: for every valid Kronecker input with square factors (positive side
lengths) whose factor determinants are all strictly positive, and for any
logarithm `lg` into a commutative additive monoid satisfying the two laws of
the external `log` primitive on positive arguments (`log(x*y) = log x + log y`
and `log(x^n) = n * log x`), `log_determinant` returns exactly the logarithm
of the (positive) value that `determinant` returns: the sum over i of
`log(det(factor_i)) * (N / side(i))` equals the log of the product over i of
`det(factor_i) ^ (N / side(i))`. -/
theorem log_determinant_consistent {S : Type} [AddCommMonoid S] (lg : ℤ → S)
    (hmul : ∀ x y : ℤ, 0 < x → 0 < y → lg (x * y) = lg x + lg y)
    (hpow : ∀ (x : ℤ) (n : ℕ), 0 < x → lg (x ^ n) = n • lg x)
    (a : TensorTrain) (hk : _is_kron a = true) (hsq : allSquare a.tt_cores)
    (hpos : allPos a.tt_cores) (hdet : ∀ c ∈ a.tt_cores, 0 < matDet c) :
    ∃ d : ℤ, determinant a = .ok d ∧ 0 < d ∧
      log_determinant lg a = .ok (lg d) := by
  refine ⟨_, determinantT_ok a hk hsq, ?_, ?_⟩
  · apply List.prod_pos
    intro x hx
    rcases List.mem_map.mp hx with ⟨c, hc, rfl⟩
    exact pow_pos (hdet c hc) _
  · show (log_determinantT lg a).1 = _
    rw [log_determinantT_ok lg a hk hsq,
      lg_prod_eq_sum lg hmul hpow _ _ hdet]

/-- Witness for C4 at `exTT` (factor determinants 2 and 5, both positive),
instantiating the abstract logarithm with the constant-zero map, which
satisfies both laws. -/
theorem log_determinant_consistent_witness :
    _is_kron exTT = true ∧ allSquare exTT.tt_cores ∧ allPos exTT.tt_cores ∧
      (∀ c ∈ exTT.tt_cores, 0 < matDet c) ∧
      (∃ d : ℤ, determinant exTT = .ok d ∧ 0 < d ∧
        log_determinant (fun _ : ℤ => (0 : ℤ)) exTT =
          .ok ((fun _ : ℤ => (0 : ℤ)) d)) :=
  ⟨by decide, by decide, by decide, by decide,
    log_determinant_consistent (fun _ : ℤ => (0 : ℤ))
      (by intro x y _ _; simp) (by intro x n _; simp)
      exTT (by decide) (by decide) (by decide) (by decide)⟩

/-- C5: for every valid Kronecker input with square factors, `inv`
(respectively `cholesky`) returns a brand-new factored-matrix value whose
factor list is the per-factor dense transforms in the same order, whose shape
descriptor equals the input's, and whose linking-rank sequence is k+1 ones.
The input is never mutated: in this pure embedding both operations only read
`kron_a` and build their result with the external constructor. -/
theorem inv_cholesky_construction (f g : Mat → Mat) (a : TensorTrain)
    (hk : _is_kron a = true) (hsq : allSquare a.tt_cores) :
    inv f a = .ok (mkTT (a.tt_cores.map f) a.raw_shape
        (List.replicate (a.ndims + 1) 1)) ∧
    cholesky g a = .ok (mkTT (a.tt_cores.map g) a.raw_shape
        (List.replicate (a.ndims + 1) 1)) := by
  constructor
  · show (invT f a).1 = _
    rw [invT_ok f a hk hsq]
  · show (choleskyT g a).1 = _
    rw [choleskyT_ok g a hk hsq]

/-- Witness for C5 at `exTT` with the identity as both dense transforms. -/
theorem inv_cholesky_construction_witness :
    _is_kron exTT = true ∧ allSquare exTT.tt_cores ∧
      (inv (fun m => m) exTT = .ok (mkTT (exTT.tt_cores.map fun m => m)
          exTT.raw_shape (List.replicate (exTT.ndims + 1) 1)) ∧
        cholesky (fun m => m) exTT = .ok (mkTT (exTT.tt_cores.map fun m => m)
          exTT.raw_shape (List.replicate (exTT.ndims + 1) 1))) :=
  ⟨by decide, by decide,
    inv_cholesky_construction (fun m => m) (fun m => m) exTT
      (by decide) (by decide)⟩

/-- C6: the structure validator is a total pure predicate: it returns true if
and only if the value is tagged as a matrix and the maximum of its
linking-rank sequence equals 1.  (Totality and purity are inherent to the
embedding: `_is_kron` is a total Lean function into `Bool`, so it never raises
and has no side effects.) -/
theorem is_kron_total_spec (a : TensorTrain) :
    _is_kron a = true ↔
      a.is_tt_matrix = true ∧ a.tt_ranks.maximum = WithBot.some 1 :=
  is_kron_iff a

/-- C7: permuting the order of the factor cores (the shape descriptor, which
the scalar operations never read, may be permuted correspondingly) leaves the
results of `determinant` and `log_determinant` unchanged, for any scalar
codomain of the logarithm primitive. -/
theorem scalar_ops_perm_invariant {S : Type} [AddCommMonoid S] (lg : ℤ → S)
    (a b : TensorTrain) (hperm : a.tt_cores.Perm b.tt_cores)
    (hka : _is_kron a = true) (hkb : _is_kron b = true)
    (hsq : allSquare a.tt_cores) :
    determinant a = determinant b ∧
      log_determinant lg a = log_determinant lg b := by
  have hsqb : allSquare b.tt_cores := fun c hc => hsq c (hperm.mem_iff.mpr hc)
  have hN : sidesProd a.tt_cores = sidesProd b.tt_cores :=
    (hperm.map matRows).prod_eq
  constructor
  · show (determinantT a).1 = (determinantT b).1
    rw [determinantT_ok a hka hsq, determinantT_ok b hkb hsqb, ← hN]
    exact congrArg _
      ((hperm.map fun c =>
        matDet c ^ (sidesProd a.tt_cores / matRows c)).prod_eq)
  · show (log_determinantT lg a).1 = (log_determinantT lg b).1
    rw [log_determinantT_ok lg a hka hsq, log_determinantT_ok lg b hkb hsqb,
      ← hN]
    exact congrArg _
      ((hperm.map fun c =>
        (sidesProd a.tt_cores / matRows c) • lg (matDet c)).sum_eq)

/-- Witness for C7: swapping the two factors of `exTT` leaves determinant and
log-determinant (with the constant-zero logarithm) unchanged. -/
theorem scalar_ops_perm_invariant_witness :
    exTT.tt_cores.Perm exTTswap.tt_cores ∧ _is_kron exTT = true ∧
      _is_kron exTTswap = true ∧ allSquare exTT.tt_cores ∧
      (determinant exTT = determinant exTTswap ∧
        log_determinant (fun _ : ℤ => (0 : ℤ)) exTT =
          log_determinant (fun _ : ℤ => (0 : ℤ)) exTTswap) :=
  ⟨by decide, by decide, by decide, by decide,
    scalar_ops_perm_invariant (fun _ : ℤ => (0 : ℤ)) exTT exTTswap
      (by decide) (by decide) (by decide) (by decide)⟩

/-- C8: for every structurally valid input with square factors (positive side
lengths) in which some factor's determinant is zero or negative,
`log_determinant` raises no explicit error: it completes with `.ok`, and the
value returned is non-finite (`⊥` in the `WithBot` model of IEEE scalars,
where `tf.log` of a non-positive argument is non-finite and non-finiteness
propagates through the accumulation), which the caller must detect. -/
theorem log_determinant_nonpos_nonfinite (l : ℤ → ℤ) (a : TensorTrain)
    (hk : _is_kron a = true) (hsq : allSquare a.tt_cores)
    (hpos : allPos a.tt_cores) (hbad : ∃ c ∈ a.tt_cores, matDet c ≤ 0) :
    log_determinant (logOrBot l) a = .ok ⊥ := by
  show (log_determinantT (logOrBot l) a).1 = _
  rw [log_determinantT_ok (logOrBot l) a hk hsq]
  refine congrArg Except.ok ?_
  apply sum_eq_bot_of_mem
  rcases hbad with ⟨c, hc, hle⟩
  apply List.mem_map.mpr
  refine ⟨c, hc, ?_⟩
  have hlg : logOrBot l (matDet c) = ⊥ := by
    simp only [logOrBot]
    rw [if_neg (not_lt.mpr hle)]
  rw [hlg]
  exact nsmul_bot_of_pos (exponent_pos hc hpos)

/-- Witness for C8 at `exZeroDet` (single 1×1 factor with determinant 0),
instantiating the finite part of the logarithm with the identity. -/
theorem log_determinant_nonpos_nonfinite_witness :
    _is_kron exZeroDet = true ∧ allSquare exZeroDet.tt_cores ∧
      allPos exZeroDet.tt_cores ∧
      (∃ c ∈ exZeroDet.tt_cores, matDet c ≤ 0) ∧
      log_determinant (logOrBot fun q => q) exZeroDet = .ok ⊥ :=
  ⟨by decide, by decide, by decide, by decide,
    log_determinant_nonpos_nonfinite (fun q => q) exZeroDet
      (by decide) (by decide) (by decide) (by decide)⟩

/-- C9: for every valid Kronecker input with exactly one square factor (of
positive side), each operation behaves as the dense primitive applied directly
to that factor: `determinant` returns `det(factor)` (the exponent `N/side` is
1), `log_determinant` returns `log(det(factor))`, and `inv` (respectively
`cholesky`) returns a one-factor value whose single core is the dense inverse
(respectively Cholesky factor) of the factor, with linking ranks [1, 1]. -/
theorem single_factor_degenerate {S : Type} [AddCommMonoid S] (lg : ℤ → S)
    (f g : Mat → Mat) (a : TensorTrain) (c : Mat)
    (hc : a.tt_cores = [c]) (hk : _is_kron a = true)
    (hsq : matRows c = matCols c) (hpos : 0 < matRows c) :
    determinant a = .ok (matDet c) ∧
    log_determinant lg a = .ok (lg (matDet c)) ∧
    inv f a = .ok (mkTT [f c] a.raw_shape [1, 1]) ∧
    cholesky g a = .ok (mkTT [g c] a.raw_shape [1, 1]) := by
  have hsq' : allSquare a.tt_cores := by
    rw [hc]
    intro x hx
    rcases List.mem_cons.mp hx with rfl | hx
    · exact hsq
    · simp at hx
  have hNdiv : sidesProd [c] / matRows c = 1 := by
    simp only [sidesProd, List.map_cons, List.map_nil, List.prod_cons,
      List.prod_nil, mul_one]
    exact Nat.div_self hpos
  have hnd : a.ndims = 1 := by simp [TensorTrain.ndims, hc]
  refine ⟨?_, ?_, ?_, ?_⟩
  · show (determinantT a).1 = _
    rw [determinantT_ok a hk hsq', hc]
    simp only [List.map_cons, List.map_nil, List.prod_cons, List.prod_nil,
      mul_one, hNdiv, pow_one]
  · show (log_determinantT lg a).1 = _
    rw [log_determinantT_ok lg a hk hsq', hc]
    simp only [List.map_cons, List.map_nil, List.sum_cons, List.sum_nil,
      add_zero, hNdiv, one_smul]
  · show (invT f a).1 = _
    rw [invT_ok f a hk hsq', hc, hnd]
    rfl
  · show (choleskyT g a).1 = _
    rw [choleskyT_ok g a hk hsq', hc, hnd]
    rfl

/-- Witness for C9 at the one-factor value over `exA`, with the identity as
both dense transforms and the constant-zero logarithm. -/
theorem single_factor_degenerate_witness :
    (⟨[exA], [(2, 2)], [1, 1], true⟩ : TensorTrain).tt_cores = [exA] ∧
    _is_kron ⟨[exA], [(2, 2)], [1, 1], true⟩ = true ∧
    matRows exA = matCols exA ∧ 0 < matRows exA ∧
    (determinant ⟨[exA], [(2, 2)], [1, 1], true⟩ = .ok (matDet exA) ∧
      log_determinant (fun _ : ℤ => (0 : ℤ)) ⟨[exA], [(2, 2)], [1, 1], true⟩ =
        .ok ((fun _ : ℤ => (0 : ℤ)) (matDet exA)) ∧
      inv (fun m => m) ⟨[exA], [(2, 2)], [1, 1], true⟩ =
        .ok (mkTT [exA] [(2, 2)] [1, 1]) ∧
      cholesky (fun m => m) ⟨[exA], [(2, 2)], [1, 1], true⟩ =
        .ok (mkTT [exA] [(2, 2)] [1, 1])) :=
  ⟨rfl, by decide, by decide, by decide,
    single_factor_degenerate (fun _ : ℤ => (0 : ℤ)) (fun m => m) (fun m => m)
      ⟨[exA], [(2, 2)], [1, 1], true⟩ exA rfl (by decide) (by decide)
      (by decide)⟩

theorem mkTT_replicate_accepted (cores : List Mat) (shape : List (ℕ × ℕ))
    (n : ℕ) (hsq : allSquare cores) :
    _is_kron (mkTT cores shape (List.replicate (n + 1) 1)) = true ∧
    acceptedByAll (mkTT cores shape (List.replicate (n + 1) 1)) := by
  have hk : _is_kron (mkTT cores shape (List.replicate (n + 1) 1)) = true := by
    unfold _is_kron mkTT TensorTrain.get_tt_ranks
    simp [listMax_replicate_one n]
  have hsq' : allSquare (mkTT cores shape (List.replicate (n + 1) 1)).tt_cores :=
    hsq
  refine ⟨hk, ⟨_, determinantT_ok _ hk hsq'⟩, ?_, ?_, ?_⟩
  · intro S inst lg
    exact ⟨_, log_determinantT_ok lg _ hk hsq'⟩
  · exact fun f' => ⟨_, congrArg Prod.fst (invT_ok f' _ hk hsq')⟩
  · exact fun g' => ⟨_, congrArg Prod.fst (choleskyT_ok g' _ hk hsq')⟩

/-- C10: for every valid input (and dense primitives that map square matrices
to square matrices, as the external inverse and Cholesky primitives do), the
factored value returned by `inv` or `cholesky` itself passes the structure
validator — it is matrix-tagged with all linking ranks 1 — and is therefore an
acceptable input to all four operations: none of them returns a
structural-validation error on it. -/
theorem kron_output_closure (f g : Mat → Mat)
    (hf : ∀ m : Mat, matRows m = matCols m → matRows (f m) = matCols (f m))
    (hg : ∀ m : Mat, matRows m = matCols m → matRows (g m) = matCols (g m))
    (a : TensorTrain) (hk : _is_kron a = true) (hsq : allSquare a.tt_cores) :
    ∃ b bc : TensorTrain, inv f a = .ok b ∧ cholesky g a = .ok bc ∧
      _is_kron b = true ∧ _is_kron bc = true ∧
      acceptedByAll b ∧ acceptedByAll bc := by
  have hsqf : allSquare (a.tt_cores.map f) := by
    intro x hx
    rcases List.mem_map.mp hx with ⟨d, hd, rfl⟩
    exact hf d (hsq d hd)
  have hsqg : allSquare (a.tt_cores.map g) := by
    intro x hx
    rcases List.mem_map.mp hx with ⟨d, hd, rfl⟩
    exact hg d (hsq d hd)
  have hb := mkTT_replicate_accepted (a.tt_cores.map f) a.raw_shape
    a.ndims hsqf
  have hbc := mkTT_replicate_accepted (a.tt_cores.map g) a.raw_shape
    a.ndims hsqg
  refine ⟨_, _, ?_, ?_, hb.1, hbc.1, hb.2, hbc.2⟩
  · show (invT f a).1 = _
    rw [invT_ok f a hk hsq]
  · show (choleskyT g a).1 = _
    rw [choleskyT_ok g a hk hsq]

/-- Witness for C10 at `exTT` with the identity (which preserves squareness)
as both dense primitives. -/
theorem kron_output_closure_witness :
    (∀ m : Mat, matRows m = matCols m → matRows m = matCols m) ∧
    _is_kron exTT = true ∧ allSquare exTT.tt_cores ∧
    (∃ b bc : TensorTrain,
      inv (fun m => m) exTT = .ok b ∧ cholesky (fun m => m) exTT = .ok bc ∧
      _is_kron b = true ∧ _is_kron bc = true ∧
      acceptedByAll b ∧ acceptedByAll bc) :=
  ⟨fun _ h => h, by decide, by decide,
    kron_output_closure (fun m => m) (fun m => m) (fun _ h => h) (fun _ h => h)
      exTT (by decide) (by decide)⟩
